import Mathlib

/-!
# Verification of the CSV encode/decode core of `cardapp` (src/app.js)

This file shallowly embeds the CSV helper functions of `src/app.js`
(`escapeCsvField`, `wordsToCsv`, `parseTwoFieldCsvLine`, `csvToWords`)
as executable Lean definitions over `List Char`, and proves (or refutes)
the specification claims about them.

JavaScript strings are modelled as `List Char`; `String.prototype.trim`
is modelled by dropping the standard JS whitespace characters from both
ends, `String.prototype.toLowerCase` by `Char.toLower` on every
character, and `split(/\r?\n/)` by a direct recursion that splits on a
line feed, consuming one immediately preceding carriage return.
-/

namespace CardApp

/-- Convenience: the character list of a string literal. -/
def chars (s : String) : List Char := s.data

/-- A (word, definition) record, the unit of import/export.
The surrounding app also stores an id and a timestamp, but those are
generated outside the CSV core and are out of scope per the spec. -/
structure Record where
  word : List Char
  definition : List Char
deriving DecidableEq, Repr

/-- Whitespace recognized by JavaScript `String.prototype.trim`
(ASCII whitespace, NBSP, BOM, and the Unicode line separators). -/
def isJsWhitespace (c : Char) : Bool :=
  c = ' ' || c = '\t' || c = '\n' || c = '\r' || c = '\x0b' || c = '\x0c' ||
  c = '\u00A0' || c = '\uFEFF' || c = '\u2028' || c = '\u2029'

/-- Model of JavaScript `String.prototype.trim`: drop whitespace from
both ends. -/
def jsTrim (s : List Char) : List Char :=
  ((s.dropWhile isJsWhitespace).reverse.dropWhile isJsWhitespace).reverse

/-- Model of JavaScript `String.prototype.toLowerCase` (ASCII range, which
is all the decoder's header comparison ever relies on). -/
def jsToLower (s : List Char) : List Char := s.map Char.toLower

/-- `field.replace(/"/g, '""')` from `escapeCsvField`: double every
double-quote character. -/
def doubleQuotes : List Char → List Char
  | [] => []
  | c :: rest => if c = '"' then '"' :: '"' :: doubleQuotes rest
                 else c :: doubleQuotes rest

/-- The `needsQuotes` test of `escapeCsvField`: the field contains a
comma, a double quote, a line feed, or a carriage return. -/
def needsQuotes (f : List Char) : Bool :=
  f.contains ',' || f.contains '"' || f.contains '\n' || f.contains '\r'

/-- `escapeCsvField` from src/app.js: `null`/`undefined` becomes the
empty string; if the field needs quotes it is wrapped in double quotes
with internal double quotes doubled, otherwise the (quote-doubled, but
then necessarily quote-free) field is returned as is. -/
def escapeCsvField (field : Option (List Char)) : List Char :=
  let f := field.getD []
  let escapedField := doubleQuotes f
  if needsQuotes f then '"' :: escapedField ++ ['"'] else escapedField

/-- `[header, ...lines].flatten('\n')` from `wordsToCsv`. -/
def intercalateNL : List (List Char) → List Char
  | [] => []
  | [l] => l
  | l :: ls => l ++ '\n' :: intercalateNL ls

/-- The fixed CSV header line `word,definition`. -/
def headerChars : List Char := chars "word,definition"

/-- The data line `wordsToCsv` emits for one record. -/
def lineOfRecord (r : Record) : List Char :=
  escapeCsvField (some r.word) ++ ',' :: escapeCsvField (some r.definition)

/-- `wordsToCsv` from src/app.js: the header followed by one escaped
line per record, joined with `'\n'`. -/
def wordsToCsv (wordsArray : List Record) : List Char :=
  intercalateNL (headerChars :: wordsArray.map lineOfRecord)

/-- The character scan of `parseTwoFieldCsvLine`: walk the (trimmed)
line with an in-quote flag, starting a new field at each unquoted
comma, turning `""` inside quotes into a literal `"`, toggling the flag
at every other `"`, and appending the accumulated field at the end. -/
def scanFields : List Char → List Char → Bool → List (List Char)
  | [], cur, _ => [cur]
  | '"' :: '"' :: rest, cur, true => scanFields rest (cur ++ ['"']) true
  | '"' :: rest, cur, true => scanFields rest cur false
  | '"' :: rest, cur, false => scanFields rest cur true
  | ',' :: rest, cur, false => cur :: scanFields rest [] false
  | c :: rest, cur, inQuote => scanFields rest (cur ++ [c]) inQuote

/-- `field.replace(/""/g, '"')` from `parseTwoFieldCsvLine`: one
left-to-right pass replacing each (non-overlapping) pair of consecutive
double quotes by a single one. -/
def collapseDoubleQuotes : List Char → List Char
  | '"' :: '"' :: rest => '"' :: collapseDoubleQuotes rest
  | c :: rest => c :: collapseDoubleQuotes rest
  | [] => []

/-- The post-processing `fields[k] ? fields[k].replace(/""/g,'"').trim() : ''`
applied to an optional raw field (`none` models `undefined`, and the
empty string is falsy in JavaScript). -/
def postField : Option (List Char) → List Char
  | none => []
  | some f => if f.isEmpty then [] else jsTrim (collapseDoubleQuotes f)

/-- `parseTwoFieldCsvLine` from src/app.js: trim the line, return
`none` (JS `null`) if it is then empty, otherwise scan it into fields
and build a record from the first two (a missing second field becomes
the empty string). -/
def parseTwoFieldCsvLine (line : List Char) : Option Record :=
  let trimmedLine := jsTrim line
  if trimmedLine.isEmpty then none
  else
    let fields := scanFields trimmedLine [] false
    some ⟨postField fields.head?, postField fields[1]?⟩

/-- `csvString.split(/\r?\n/)`: split on each line feed, consuming one
carriage return immediately before it. -/
def splitLinesCRLF : List Char → List (List Char)
  | [] => [[]]
  | '\r' :: '\n' :: rest => [] :: splitLinesCRLF rest
  | '\n' :: rest => [] :: splitLinesCRLF rest
  | c :: rest =>
    match splitLinesCRLF rest with
    | [] => [[c]]
    | l :: ls => (c :: l) :: ls

/-- The decoder's line list: split the blob and keep the lines that are
non-empty after trimming (`.filter(line => line.trim() !== '')`). -/
def nonBlankLines (s : List Char) : List (List Char) :=
  (splitLinesCRLF s).filter (fun l => !(jsTrim l).isEmpty)

/-- The decoder's optional-header removal: if the first line, lowercased
and trimmed, is exactly `word,definition`, drop it (`lines.shift()`). -/
def stripHeader (ls : List (List Char)) : List (List Char) :=
  match ls with
  | [] => []
  | l :: rest => if jsTrim (jsToLower l) = headerChars then rest else l :: rest

/-- `csvToWords` from src/app.js, restricted to the CSV core: split into
non-blank lines, drop an optional header, and parse each remaining line
(the generated id/timestamp and the always-true validity check on the
parsed object are outside the core's data model). -/
def csvToWords (csvString : List Char) : List Record :=
  (stripHeader (nonBlankLines csvString)).filterMap parseTwoFieldCsvLine

/-- `[l1, ...].flatten('\r\n')`: the same line list joined with Windows line
endings, used to state the decoder's line-ending tolerance. -/
def intercalateCRLF : List (List Char) → List Char
  | [] => []
  | [l] => l
  | l :: ls => l ++ '\r' :: '\n' :: intercalateCRLF ls

/-- Remove one carriage return from the end of a line, if present: the
effect `split(/\r?\n/)` has on a line that was followed by a line feed. -/
def stripLastCR (l : List Char) : List Char :=
  match l.getLast? with
  | some '\r' => l.dropLast
  | _ => l

/-- Apply `f` to every element except the last one. -/
def mapButLast (f : List Char → List Char) : List (List Char) → List (List Char)
  | [] => []
  | [l] => [l]
  | l :: ls => f l :: mapButLast f ls

/-- No two consecutive double-quote characters occur in the list. -/
def noConsecQuotes : List Char → Bool
  | c :: d :: rest => !(c == '"' && d == '"') && noConsecQuotes (d :: rest)
  | _ => true

/-- Fields on which the encode/decode pair is lossless: no line feed or
carriage return (the decoder splits lines before looking at quotes), no
two consecutive double quotes (the decoder collapses `""` after the
scan), and no leading or trailing whitespace (the decoder trims each
line and each field). -/
def goodField (f : List Char) : Prop :=
  '\n' ∉ f ∧ '\r' ∉ f ∧ noConsecQuotes f = true ∧ jsTrim f = f

instance goodField.decidable : DecidablePred goodField := fun f =>
  inferInstanceAs (Decidable ('\n' ∉ f ∧ '\r' ∉ f ∧ noConsecQuotes f = true ∧ jsTrim f = f))

/-! ## Supporting lemmas -/

theorem scan_nil (cur : List Char) (b : Bool) : scanFields [] cur b = [cur] := rfl

theorem scan_escape (rest cur : List Char) :
    scanFields ('"' :: '"' :: rest) cur true = scanFields rest (cur ++ ['"']) true := rfl

theorem scan_close_nil (cur : List Char) : scanFields ['"'] cur true = scanFields [] cur false := rfl

theorem scan_close_cons {c : Char} (h : c ≠ '"') (rest cur : List Char) :
    scanFields ('"' :: c :: rest) cur true = scanFields (c :: rest) cur false := by
  simp [scanFields, h]

theorem scan_open (rest cur : List Char) :
    scanFields ('"' :: rest) cur false = scanFields rest cur true := by
  cases rest with
  | nil => rfl
  | cons c r => simp [scanFields]

theorem scan_comma_out (rest cur : List Char) :
    scanFields (',' :: rest) cur false = cur :: scanFields rest [] false := by
  simp [scanFields]

theorem scan_comma_in (rest cur : List Char) :
    scanFields (',' :: rest) cur true = scanFields rest (cur ++ [',']) true := by
  simp [scanFields]

theorem scan_other {c : Char} (h1 : c ≠ '"') (h2 : c ≠ ',') (rest cur : List Char) (q : Bool) :
    scanFields (c :: rest) cur q = scanFields rest (cur ++ [c]) q := by
  cases rest with
  | nil => cases q <;> simp [scanFields, h1, h2]
  | cons d r => cases q <;> simp [scanFields, h1, h2]

theorem doubleQuotes_eq_self {f : List Char} (h : '"' ∉ f) : doubleQuotes f = f := by
  induction f with
  | nil => rfl
  | cons c rest ih =>
    simp only [List.mem_cons, not_or] at h
    simp [doubleQuotes, Ne.symm h.1, ih h.2]

theorem not_mem_doubleQuotes {c : Char} {f : List Char} (h1 : c ∉ f) (h2 : c ≠ '"') :
    c ∉ doubleQuotes f := by
  induction f with
  | nil => simp [doubleQuotes]
  | cons d rest ih =>
    simp only [List.mem_cons, not_or] at h1
    by_cases hd : d = '"' <;>
      simp [doubleQuotes, hd, List.mem_cons, not_or, h2, h1.1, ih h1.2]

theorem scan_unquoted {f : List Char} (hq : '"' ∉ f) (hc : ',' ∉ f)
    (rest cur : List Char) :
    scanFields (f ++ rest) cur false = scanFields rest (cur ++ f) false := by
  induction f generalizing cur with
  | nil => simp
  | cons c f' ih =>
    simp only [List.mem_cons, not_or] at hq hc
    rw [List.cons_append, scan_other (Ne.symm hq.1) (Ne.symm hc.1), ih hq.2 hc.2]
    simp

theorem scan_quoted {f : List Char} (rest cur : List Char)
    (h : rest.head? ≠ some '"') :
    scanFields (doubleQuotes f ++ '"' :: rest) cur true = scanFields rest (cur ++ f) false := by
  induction f generalizing cur with
  | nil =>
    simp only [doubleQuotes, List.nil_append, List.append_nil]
    cases rest with
    | nil => rfl
    | cons c r =>
      have hc : c ≠ '"' := by
        intro hc; exact h (by simp [hc])
      exact scan_close_cons hc r cur
  | cons c f' ih =>
    by_cases hc : c = '"'
    · subst hc
      rw [doubleQuotes, if_pos rfl, List.cons_append, List.cons_append,
        scan_escape, ih]
      simp
    · by_cases hcomma : c = ','
      · subst hcomma
        rw [doubleQuotes, if_neg hc, List.cons_append, scan_comma_in, ih]
        simp
      · rw [doubleQuotes, if_neg hc, List.cons_append, scan_other hc hcomma, ih]
        simp

theorem head?_dropWhile_ws {p : Char → Bool} {l : List Char} {c : Char}
    (h : (l.dropWhile p).head? = some c) : p c = false := by
  induction l with
  | nil => simp at h
  | cons a t ih =>
    by_cases hp : p a
    · rw [List.dropWhile_cons_of_pos hp] at h; exact ih h
    · rw [List.dropWhile_cons_of_neg hp] at h
      simp at h
      rw [← h]
      simpa using hp

theorem jsTrim_head_not_ws {l : List Char} {c : Char}
    (h : (jsTrim l).head? = some c) : isJsWhitespace c = false := by
  unfold jsTrim at h
  set d := l.dropWhile isJsWhitespace with hd
  have hsuf : d.reverse.dropWhile isJsWhitespace <:+ d.reverse :=
    List.dropWhile_suffix _
  have hpre : (d.reverse.dropWhile isJsWhitespace).reverse <+: d :=
    by simpa using hsuf.reverse
  obtain ⟨t, ht⟩ := hpre
  rw [← ht] at hd
  have : d.head? = some c := by
    rw [← ht, List.head?_append, h]; rfl
  exact head?_dropWhile_ws this

theorem jsTrim_getLast_not_ws {l : List Char} {c : Char}
    (h : (jsTrim l).getLast? = some c) : isJsWhitespace c = false := by
  unfold jsTrim at h
  rw [List.getLast?_reverse] at h
  exact head?_dropWhile_ws h

theorem dropWhile_eq_self_of_head {p : Char → Bool} {l : List Char}
    (h : ∀ c, l.head? = some c → p c = false) : l.dropWhile p = l := by
  cases l with
  | nil => rfl
  | cons a t =>
    have := h a rfl
    exact List.dropWhile_cons_of_neg (by simp [this])

theorem jsTrim_eq_self_of {l : List Char}
    (h1 : ∀ c, l.head? = some c → isJsWhitespace c = false)
    (h2 : ∀ c, l.getLast? = some c → isJsWhitespace c = false) : jsTrim l = l := by
  unfold jsTrim
  rw [dropWhile_eq_self_of_head h1]
  rw [dropWhile_eq_self_of_head (by intro c hc; rw [List.head?_reverse] at hc; exact h2 c hc)]
  exact List.reverse_reverse l

theorem jsTrim_idem (l : List Char) : jsTrim (jsTrim l) = jsTrim l :=
  jsTrim_eq_self_of (fun _ h => jsTrim_head_not_ws h) (fun _ h => jsTrim_getLast_not_ws h)

theorem stripLastCR_of_not_cr {l : List Char} (h : l.getLast? ≠ some '\r') :
    stripLastCR l = l := by
  unfold stripLastCR
  split
  · next heq => exact absurd heq h
  · rfl

theorem splitLinesCRLF_ne_nil (s : List Char) : splitLinesCRLF s ≠ [] := by
  rw [splitLinesCRLF.eq_def]
  split
  · simp
  · simp
  · simp
  · rename_i c rest _ _
    cases h : splitLinesCRLF rest <;> simp

theorem split_nl (rest : List Char) :
    splitLinesCRLF ('\n' :: rest) = [] :: splitLinesCRLF rest := rfl

theorem split_crlf (rest : List Char) :
    splitLinesCRLF ('\r' :: '\n' :: rest) = [] :: splitLinesCRLF rest := rfl

theorem split_other_cons {c : Char} {rest l : List Char} {ls : List (List Char)}
    (h1 : c ≠ '\n') (h2 : c = '\r' → rest.head? ≠ some '\n')
    (h3 : splitLinesCRLF rest = l :: ls) :
    splitLinesCRLF (c :: rest) = (c :: l) :: ls := by
  rw [splitLinesCRLF.eq_def]
  split
  · next heq => simp at heq
  · next r heq =>
    rw [List.cons.injEq] at heq
    exact absurd (by rw [heq.2]; rfl) (h2 heq.1)
  · next r heq =>
    rw [List.cons.injEq] at heq
    exact absurd heq.1 h1
  · next c' r hne1 hne2 heq =>
    rw [List.cons.injEq] at heq
    obtain ⟨hc, hr⟩ := heq
    subst hc; subst hr
    rw [h3]

theorem split_single {l : List Char} (h : '\n' ∉ l) : splitLinesCRLF l = [l] := by
  induction l with
  | nil => rfl
  | cons c rest ih =>
    simp only [List.mem_cons, not_or] at h
    have hrec := ih h.2
    refine split_other_cons (Ne.symm h.1) (fun _ hh => ?_) hrec
    cases rest with
    | nil => simp at hh
    | cons d r =>
      simp only [List.head?_cons, Option.some.injEq] at hh
      exact h.2 (by simp [hh])

theorem split_append_nl {l : List Char} (t : List Char) (h : '\n' ∉ l) :
    splitLinesCRLF (l ++ '\n' :: t) = stripLastCR l :: splitLinesCRLF t := by
  induction l with
  | nil =>
    simp only [List.nil_append, split_nl]
    rfl
  | cons c rest ih =>
    simp only [List.mem_cons, not_or] at h
    have hrec := ih h.2
    by_cases hcr : c = '\r'
    · subst hcr
      cases rest with
      | nil =>
        simp only [List.nil_append, List.cons_append, split_crlf]
        rfl
      | cons d r =>
        have hd : d ≠ '\n' := by
          intro hd; exact h.2 (by simp [hd])
        rw [List.cons_append,
          split_other_cons (by decide) (fun _ hh => by simp [hd] at hh) hrec]
        congr 1
        unfold stripLastCR
        rw [List.getLast?_cons_cons]
        split
        · next heq =>
          rw [List.dropLast_cons₂]
        · rfl
    · have hc : c ≠ '\n' := Ne.symm h.1
      cases rest with
      | nil =>
        have hstep : splitLinesCRLF (c :: '\n' :: t) = (c :: []) :: splitLinesCRLF t :=
          split_other_cons hc (fun hcr2 _ => absurd hcr2 hcr) (split_nl t)
        simp only [List.singleton_append]
        rw [hstep, stripLastCR_of_not_cr (by simp [hcr])]
      | cons d r =>
        have hd : d ≠ '\n' := by
          intro hd; exact h.2 (by simp [hd])
        rw [List.cons_append,
          split_other_cons hc (fun hcr2 _ => absurd hcr2 hcr) hrec]
        congr 1
        unfold stripLastCR
        rw [List.getLast?_cons_cons]
        split
        · next heq =>
          rw [List.dropLast_cons₂]
        · rfl

theorem split_append_crlf {l : List Char} (t : List Char)
    (h1 : '\n' ∉ l) (h2 : '\r' ∉ l) :
    splitLinesCRLF (l ++ '\r' :: '\n' :: t) = l :: splitLinesCRLF t := by
  induction l with
  | nil => exact split_crlf t
  | cons c rest ih =>
    simp only [List.mem_cons, not_or] at h1 h2
    rw [List.cons_append,
      split_other_cons (Ne.symm h1.1) (fun hcr _ => absurd hcr (Ne.symm h2.1))
        (ih h1.2 h2.2)]

theorem intercalateNL_cons {ls : List (List Char)} (l : List Char) (h : ls ≠ []) :
    intercalateNL (l :: ls) = l ++ '\n' :: intercalateNL ls := by
  cases ls with
  | nil => exact absurd rfl h
  | cons l2 ls' => rfl

theorem intercalateNL_eq_join (h : List Char) (ls : List (List Char)) :
    intercalateNL (h :: ls) = h ++ (ls.map (fun l => '\n' :: l)).flatten := by
  induction ls generalizing h with
  | nil => simp [intercalateNL]
  | cons l2 ls' ih =>
    rw [intercalateNL_cons h (by simp), ih l2]
    simp

theorem split_intercalate {ls : List (List Char)} (l : List Char)
    (h : ∀ x ∈ l :: ls, '\n' ∉ x) :
    splitLinesCRLF (intercalateNL (l :: ls)) = mapButLast stripLastCR (l :: ls) := by
  induction ls generalizing l with
  | nil => exact (split_single (h l (by simp))).trans rfl
  | cons l2 ls' ih =>
    rw [intercalateNL_cons l (by simp),
      split_append_nl _ (h l (List.mem_cons_self _ _)),
      ih l2 (fun x hx => h x (List.mem_cons_of_mem _ hx))]
    rfl

theorem stripLastCR_eq_self_of_no_cr {l : List Char} (h : '\r' ∉ l) :
    stripLastCR l = l := by
  apply stripLastCR_of_not_cr
  intro hlast
  rw [List.getLast?_eq_some_iff] at hlast
  obtain ⟨ys, rfl⟩ := hlast
  simp at h

theorem mapButLast_eq_self {f : List Char → List Char} {ls : List (List Char)}
    (h : ∀ x ∈ ls, f x = x) : mapButLast f ls = ls := by
  induction ls with
  | nil => rfl
  | cons l ls' ih =>
    cases ls' with
    | nil => rfl
    | cons l2 ls'' =>
      show f l :: mapButLast f (l2 :: ls'') = l :: l2 :: ls''
      rw [h l (by simp), ih (fun x hx => h x (List.mem_cons_of_mem _ hx))]

theorem collapse_other {c d : Char} {rest : List Char} (h : ¬(c = '"' ∧ d = '"')) :
    collapseDoubleQuotes (c :: d :: rest) = c :: collapseDoubleQuotes (d :: rest) := by
  rw [collapseDoubleQuotes.eq_def]
  split
  · next heq =>
    rw [List.cons.injEq, List.cons.injEq] at heq
    exact absurd ⟨heq.1, heq.2.1⟩ h
  · next c' rest' _ heq =>
    rw [List.cons.injEq] at heq
    rw [heq.1, heq.2]
  · next heq => simp at heq

theorem collapse_one (c : Char) : collapseDoubleQuotes [c] = [c] := by
  rw [collapseDoubleQuotes.eq_def]
  split
  · next heq => simp at heq
  · next c' rest' _ heq =>
    rw [List.cons.injEq] at heq
    obtain ⟨h1, h2⟩ := heq
    subst h1; subst h2
    rfl
  · next heq => simp at heq

theorem collapse_eq_self : ∀ {f : List Char}, noConsecQuotes f = true →
    collapseDoubleQuotes f = f := by
  intro f
  induction f with
  | nil => intro _; rfl
  | cons c tail ih =>
    intro h
    cases tail with
    | nil => exact collapse_one c
    | cons d rest =>
      have h' : ¬(c = '"' ∧ d = '"') ∧ noConsecQuotes (d :: rest) = true := by
        have := h
        simp only [noConsecQuotes, Bool.and_eq_true, Bool.not_eq_true',
          Bool.and_eq_false_iff, beq_eq_false_iff_ne, ne_eq] at this
        constructor
        · rcases this.1 with h1 | h1
          · exact fun hc => h1 hc.1
          · exact fun hc => h1 hc.2
        · exact this.2
      rw [collapse_other h'.1, ih h'.2]

theorem jsTrim_append_ws {w : Char} (hw : isJsWhitespace w = true) (l : List Char) :
    jsTrim (l ++ [w]) = jsTrim l := by
  unfold jsTrim
  rw [List.dropWhile_append]
  by_cases hd : (l.dropWhile isJsWhitespace).isEmpty
  · rw [if_pos hd]
    have h1 : List.dropWhile isJsWhitespace [w] = [] := by
      rw [List.dropWhile_cons_of_pos hw]; rfl
    rw [h1]
    rw [List.isEmpty_iff] at hd
    rw [hd]
  · rw [if_neg hd]
    rw [List.reverse_append]
    simp only [List.reverse_cons, List.reverse_nil, List.nil_append, List.singleton_append]
    rw [List.dropWhile_cons_of_pos hw]

theorem trim_stripLastCR (l : List Char) : jsTrim (stripLastCR l) = jsTrim l := by
  unfold stripLastCR
  split
  · next heq =>
    rw [List.getLast?_eq_some_iff] at heq
    obtain ⟨ys, rfl⟩ := heq
    rw [List.dropLast_concat]
    exact (jsTrim_append_ws (by decide) ys).symm
  · rfl

theorem trim_toLower_stripLastCR (l : List Char) :
    jsTrim (jsToLower (stripLastCR l)) = jsTrim (jsToLower l) := by
  unfold stripLastCR
  split
  · next heq =>
    rw [List.getLast?_eq_some_iff] at heq
    obtain ⟨ys, rfl⟩ := heq
    rw [List.dropLast_concat]
    unfold jsToLower
    rw [List.map_append]
    show jsTrim (List.map Char.toLower ys) = jsTrim (List.map Char.toLower ys ++ ['\r'])
    exact (jsTrim_append_ws (by decide) _).symm
  · rfl

theorem needsQuotes_iff {f : List Char} :
    needsQuotes f = true ↔ (',' ∈ f ∨ '"' ∈ f ∨ '\n' ∈ f ∨ '\r' ∈ f) := by
  simp [needsQuotes, or_assoc]

theorem needsQuotes_false_not_mem {f : List Char} (h : needsQuotes f = false) :
    ',' ∉ f ∧ '"' ∉ f ∧ '\n' ∉ f ∧ '\r' ∉ f := by
  have := (Bool.not_eq_true _).mpr h
  rw [needsQuotes_iff] at this
  push_neg at this
  exact this

theorem esc_quoted {f : List Char} (h : needsQuotes f = true) :
    escapeCsvField (some f) = '"' :: doubleQuotes f ++ ['"'] := by
  simp [escapeCsvField, h]

theorem esc_plain {f : List Char} (h : needsQuotes f = false) :
    escapeCsvField (some f) = f := by
  simp [escapeCsvField, h, doubleQuotes_eq_self (needsQuotes_false_not_mem h).2.1]

theorem not_mem_esc {c : Char} {f : List Char} (h1 : c ∉ f) (h2 : c ≠ '"') :
    c ∉ escapeCsvField (some f) := by
  by_cases hq : needsQuotes f
  · rw [esc_quoted hq]
    intro hmem
    rcases List.mem_cons.mp hmem with h' | h'
    · exact h2 h'
    · rcases List.mem_append.mp h' with h'' | h''
      · exact not_mem_doubleQuotes h1 h2 h''
      · exact h2 (by simpa using h'')
  · rw [esc_plain (by simpa using hq)]
    exact h1

theorem scan_escaped_field {f : List Char} (rest cur : List Char)
    (h : rest.head? ≠ some '"') :
    scanFields (escapeCsvField (some f) ++ rest) cur false = scanFields rest (cur ++ f) false := by
  by_cases hq : needsQuotes f
  · rw [esc_quoted hq]
    have hshape : ('"' :: doubleQuotes f ++ ['"']) ++ rest
        = '"' :: (doubleQuotes f ++ '"' :: rest) := by simp
    rw [hshape, scan_open, scan_quoted rest cur h]
  · have hnm := needsQuotes_false_not_mem (by simpa using hq)
    rw [esc_plain (by simpa using hq), scan_unquoted hnm.2.1 hnm.1]

theorem esc_head_not_ws {f : List Char} (hf : jsTrim f = f) {c : Char}
    (h : (escapeCsvField (some f)).head? = some c) : isJsWhitespace c = false := by
  by_cases hq : needsQuotes f
  · rw [esc_quoted hq] at h
    have hc : c = '"' := by simpa using h.symm
    subst hc
    decide
  · rw [esc_plain (by simpa using hq)] at h
    exact jsTrim_head_not_ws (by rw [hf]; exact h)

theorem esc_last_not_ws {f : List Char} (hf : jsTrim f = f) {c : Char}
    (h : (escapeCsvField (some f)).getLast? = some c) : isJsWhitespace c = false := by
  by_cases hq : needsQuotes f
  · rw [esc_quoted hq] at h
    rw [show ('"' :: doubleQuotes f ++ ['"']) = ('"' :: doubleQuotes f) ++ ['"'] by simp,
      List.getLast?_concat] at h
    have : c = '"' := by simpa using h.symm
    subst this
    decide
  · rw [esc_plain (by simpa using hq)] at h
    exact jsTrim_getLast_not_ws (by rw [hf]; exact h)

theorem postField_good {w : List Char} (h1 : noConsecQuotes w = true)
    (h2 : jsTrim w = w) : postField (some w) = w := by
  show (if w.isEmpty then [] else jsTrim (collapseDoubleQuotes w)) = w
  by_cases hw : w.isEmpty
  · rw [if_pos hw]
    exact (List.isEmpty_iff.mp hw).symm
  · rw [if_neg hw, collapse_eq_self h1, h2]

theorem trim_line_eq {r : Record} (hw : jsTrim r.word = r.word)
    (hd : jsTrim r.definition = r.definition) :
    jsTrim (lineOfRecord r) = lineOfRecord r := by
  apply jsTrim_eq_self_of
  · intro c hc
    unfold lineOfRecord at hc
    rw [List.head?_append] at hc
    cases hesc : (escapeCsvField (some r.word)).head? with
    | none =>
      rw [hesc] at hc
      have : c = ',' := by simpa using hc.symm
      subst this; decide
    | some c0 =>
      rw [hesc] at hc
      have : c0 = c := by simpa using hc
      exact esc_head_not_ws hw (this ▸ hesc)
  · intro c hc
    unfold lineOfRecord at hc
    rw [show escapeCsvField (some r.word) ++ ',' :: escapeCsvField (some r.definition)
        = (escapeCsvField (some r.word) ++ [',']) ++ escapeCsvField (some r.definition) by simp,
      List.getLast?_append, List.getLast?_concat] at hc
    cases hesc : (escapeCsvField (some r.definition)).getLast? with
    | none =>
      rw [hesc] at hc
      have : c = ',' := by simpa using hc.symm
      subst this; decide
    | some c0 =>
      rw [hesc] at hc
      have : c0 = c := by simpa using hc
      exact esc_last_not_ws hd (this ▸ hesc)

theorem parse_lineOfRecord {r : Record}
    (hw : goodField r.word) (hd : goodField r.definition) :
    parseTwoFieldCsvLine (lineOfRecord r) = some r := by
  have htrim := trim_line_eq hw.2.2.2 hd.2.2.2
  have hne : (lineOfRecord r).isEmpty = false := by
    unfold lineOfRecord
    cases hesc : escapeCsvField (some r.word) <;> simp
  have hscan : scanFields (lineOfRecord r) [] false = [r.word, r.definition] := by
    unfold lineOfRecord
    rw [scan_escaped_field _ _ (by simp), List.nil_append, scan_comma_out]
    have h2 := scan_escaped_field (f := r.definition) [] [] (by simp)
    rw [List.append_nil, List.nil_append] at h2
    rw [h2]
    rfl
  unfold parseTwoFieldCsvLine
  rw [htrim]
  simp only [hne, Bool.false_eq_true, if_neg, hscan, Bool.not_eq_true]
  rw [if_neg (by simp [hne])]
  show some (⟨postField (some r.word), postField (some r.definition)⟩ : Record) = some r
  rw [postField_good hw.2.2.1 hw.2.2.2, postField_good hd.2.2.1 hd.2.2.2]

theorem not_mem_line {c : Char} {r : Record} (hc1 : c ≠ '"') (hc2 : c ≠ ',')
    (h1 : c ∉ r.word) (h2 : c ∉ r.definition) : c ∉ lineOfRecord r := by
  unfold lineOfRecord
  intro hmem
  rcases List.mem_append.mp hmem with h' | h'
  · exact not_mem_esc h1 hc1 h'
  · rcases List.mem_cons.mp h' with h'' | h''
    · exact hc2 h''
    · exact not_mem_esc h2 hc1 h''

theorem filterMap_parse_map : ∀ {ws : List Record},
    (∀ r ∈ ws, goodField r.word ∧ goodField r.definition) →
    (ws.map lineOfRecord).filterMap parseTwoFieldCsvLine = ws := by
  intro ws
  induction ws with
  | nil => intro _; rfl
  | cons r rs ih =>
    intro h
    have hp := parse_lineOfRecord (h r (by simp)).1 (h r (by simp)).2
    simp only [List.map_cons, List.filterMap_cons, hp]
    rw [ih (fun x hx => h x (List.mem_cons_of_mem _ hx))]

theorem noNL_splitLines : ∀ {s : List Char}, ∀ l ∈ splitLinesCRLF s, '\n' ∉ l := by
  intro s
  induction s using splitLinesCRLF.induct with
  | case1 =>
    intro l hl
    simp only [splitLinesCRLF] at hl
    simp at hl
    simp [hl]
  | case2 rest ih =>
    intro l hl
    rw [split_crlf] at hl
    rcases List.mem_cons.mp hl with rfl | hl'
    · simp
    · exact ih l hl'
  | case3 rest ih =>
    intro l hl
    rw [split_nl] at hl
    rcases List.mem_cons.mp hl with rfl | hl'
    · simp
    · exact ih l hl'
  | case4 c rest h1 h2 h3 ih =>
    exact absurd h3 (splitLinesCRLF_ne_nil rest)
  | case5 c rest h1 h2 l0 ls0 h3 ih =>
    intro l hl
    have hc : c ≠ '\n' := fun hc => h2 hc
    have hcr : c = '\r' → rest.head? ≠ some '\n' := by
      intro hcr hhead
      cases rest with
      | nil => simp at hhead
      | cons d r =>
        simp only [List.head?_cons, Option.some.injEq] at hhead
        exact h1 r hcr (by rw [hhead])
    rw [split_other_cons hc hcr h3] at hl
    rcases List.mem_cons.mp hl with rfl | hl'
    · intro hmem
      rcases List.mem_cons.mp hmem with h' | h'
      · exact hc h'.symm
      · exact ih l0 (by rw [h3]; simp) h'
    · exact ih l (by rw [h3]; exact List.mem_cons_of_mem _ hl')

theorem mapButLast_mem {f : List Char → List Char} {ls : List (List Char)} {y : List Char}
    (h : y ∈ mapButLast f ls) : ∃ x ∈ ls, y = f x ∨ y = x := by
  induction ls generalizing y with
  | nil => simp [mapButLast] at h
  | cons l ls' ih =>
    cases ls' with
    | nil =>
      simp only [mapButLast, List.mem_singleton] at h
      exact ⟨l, by simp, .inr h⟩
    | cons l2 ls'' =>
      rcases List.mem_cons.mp h with rfl | h'
      · exact ⟨l, by simp, .inl rfl⟩
      · obtain ⟨x, hx, hy⟩ := ih h'
        exact ⟨x, List.mem_cons_of_mem _ hx, hy⟩

theorem parse_congr {l l' : List Char} (h : jsTrim l = jsTrim l') :
    parseTwoFieldCsvLine l = parseTwoFieldCsvLine l' := by
  unfold parseTwoFieldCsvLine
  rw [h]

theorem parse_stripLastCR (l : List Char) :
    parseTwoFieldCsvLine (stripLastCR l) = parseTwoFieldCsvLine l :=
  parse_congr (trim_stripLastCR l)

theorem filterMap_parse_mapButLast : ∀ (ls : List (List Char)),
    (mapButLast stripLastCR ls).filterMap parseTwoFieldCsvLine
      = ls.filterMap parseTwoFieldCsvLine := by
  intro ls
  induction ls with
  | nil => rfl
  | cons l ls' ih =>
    cases ls' with
    | nil => rfl
    | cons l2 ls'' =>
      show (stripLastCR l :: mapButLast stripLastCR (l2 :: ls'')).filterMap _ = _
      rw [List.filterMap_cons, List.filterMap_cons, parse_stripLastCR, ih]

theorem process_mapButLast (ls : List (List Char)) :
    (stripHeader (mapButLast stripLastCR ls)).filterMap parseTwoFieldCsvLine
      = (stripHeader ls).filterMap parseTwoFieldCsvLine := by
  cases ls with
  | nil => rfl
  | cons l ls' =>
    cases ls' with
    | nil => rfl
    | cons l2 ls'' =>
      show List.filterMap parseTwoFieldCsvLine
          (if jsTrim (jsToLower (stripLastCR l)) = headerChars
            then mapButLast stripLastCR (l2 :: ls'')
            else stripLastCR l :: mapButLast stripLastCR (l2 :: ls''))
        = List.filterMap parseTwoFieldCsvLine
          (if jsTrim (jsToLower l) = headerChars then l2 :: ls'' else l :: l2 :: ls'')
      rw [trim_toLower_stripLastCR l]
      by_cases hh : jsTrim (jsToLower l) = headerChars
      · rw [if_pos hh, if_pos hh]
        exact filterMap_parse_mapButLast (l2 :: ls'')
      · rw [if_neg hh, if_neg hh, List.filterMap_cons, List.filterMap_cons,
          parse_stripLastCR]
        rw [filterMap_parse_mapButLast (l2 :: ls'')]

theorem nonBlank_of_mem_nonBlankLines {s : List Char} {l : List Char}
    (h : l ∈ nonBlankLines s) : jsTrim l ≠ [] := by
  have := List.of_mem_filter h
  simpa [List.isEmpty_iff] using this

theorem split_intercalate_crlf {ls : List (List Char)} (l : List Char)
    (h : ∀ x ∈ l :: ls, '\n' ∉ x ∧ '\r' ∉ x) :
    splitLinesCRLF (intercalateCRLF (l :: ls)) = l :: ls := by
  induction ls generalizing l with
  | nil => exact split_single (h l (by simp)).1
  | cons l2 ls' ih =>
    show splitLinesCRLF (l ++ '\r' :: '\n' :: intercalateCRLF (l2 :: ls')) = _
    rw [split_append_crlf _ (h l (by simp)).1 (h l (by simp)).2,
      ih l2 (fun x hx => h x (List.mem_cons_of_mem _ hx))]

theorem split_intercalate_nl_clean {ls : List (List Char)} (l : List Char)
    (h : ∀ x ∈ l :: ls, '\n' ∉ x ∧ '\r' ∉ x) :
    splitLinesCRLF (intercalateNL (l :: ls)) = l :: ls := by
  rw [split_intercalate l (fun x hx => (h x hx).1)]
  exact mapButLast_eq_self (fun x hx => stripLastCR_eq_self_of_no_cr (h x hx).2)

theorem parse_some_of_nonblank {l : List Char} (h : jsTrim l ≠ []) :
    ∃ r, parseTwoFieldCsvLine l = some r := by
  unfold parseTwoFieldCsvLine
  rw [if_neg (by simpa [List.isEmpty_iff] using h)]
  exact ⟨_, rfl⟩

theorem length_filterMap_parse : ∀ {ls : List (List Char)},
    (∀ l ∈ ls, jsTrim l ≠ []) →
    (ls.filterMap parseTwoFieldCsvLine).length = ls.length := by
  intro ls
  induction ls with
  | nil => intro _; rfl
  | cons l ls' ih =>
    intro h
    obtain ⟨r, hr⟩ := parse_some_of_nonblank (h l (by simp))
    rw [List.filterMap_cons, hr]
    simp [ih (fun x hx => h x (List.mem_cons_of_mem _ hx))]

theorem mem_of_mem_stripHeader {ls : List (List Char)} {l : List Char}
    (h : l ∈ stripHeader ls) : l ∈ ls := by
  cases ls with
  | nil => exact absurd h (by simp [stripHeader])
  | cons l0 rest =>
    have heq : stripHeader (l0 :: rest)
        = if jsTrim (jsToLower l0) = headerChars then rest else l0 :: rest := rfl
    rw [heq] at h
    split at h
    · exact List.mem_cons_of_mem _ h
    · exact h

theorem parse_missing_second {l : List Char} (h : jsTrim l ≠ [])
    (h2 : (scanFields (jsTrim l) [] false)[1]? = none) :
    ∃ w, parseTwoFieldCsvLine l = some ⟨w, []⟩ := by
  unfold parseTwoFieldCsvLine
  rw [if_neg (by simpa [List.isEmpty_iff] using h)]
  refine ⟨postField (scanFields (jsTrim l) [] false).head?, ?_⟩
  show some (⟨postField (scanFields (jsTrim l) [] false).head?,
      postField (scanFields (jsTrim l) [] false)[1]?⟩ : Record)
    = some ⟨postField (scanFields (jsTrim l) [] false).head?, []⟩
  rw [h2]
  rfl

theorem postField_trimmed (x : Option (List Char)) : jsTrim (postField x) = postField x := by
  cases x with
  | none => rfl
  | some f =>
    show jsTrim (if f.isEmpty then [] else jsTrim (collapseDoubleQuotes f))
      = (if f.isEmpty then [] else jsTrim (collapseDoubleQuotes f))
    by_cases hf : f.isEmpty
    · rw [if_pos hf]; rfl
    · rw [if_neg hf]; exact jsTrim_idem _

/-! ## The claims -/

/-- C1 (counterexample): the round-trip claim fails as stated.  A record
whose word contains a line feed is escaped into a quoted field spanning
two physical lines, but the decoder splits the blob into lines before it
looks at quotes, so the single record decodes into two different ones. -/
theorem c1_roundtrip_counterexample :
    csvToWords (wordsToCsv [⟨chars "a\nb", chars "c"⟩]) ≠
      [⟨chars "a\nb", chars "c"⟩] := by decide

/-- C1 (amended): decoding the encoding of a sequence of Records yields
the original sequence, field for field and in order, provided every
field is free of line feeds, carriage returns and consecutive double
quotes, and carries no leading or trailing whitespace. -/
theorem c1_roundtrip_amended {ws : List Record}
    (h : ∀ r ∈ ws, goodField r.word ∧ goodField r.definition) :
    csvToWords (wordsToCsv ws) = ws := by
  have hgood : ∀ x ∈ ws.map lineOfRecord, '\n' ∉ x ∧ '\r' ∉ x ∧ jsTrim x = x := by
    intro x hx
    obtain ⟨r, hr, rfl⟩ := List.mem_map.mp hx
    obtain ⟨hw, hd⟩ := h r hr
    exact ⟨not_mem_line (by decide) (by decide) hw.1 hd.1,
      not_mem_line (by decide) (by decide) hw.2.1 hd.2.1,
      trim_line_eq hw.2.2.2 hd.2.2.2⟩
  have hsplit : splitLinesCRLF (wordsToCsv ws) = headerChars :: ws.map lineOfRecord := by
    unfold wordsToCsv
    rw [split_intercalate _ ?hnl]
    case hnl =>
      intro x hx
      rcases List.mem_cons.mp hx with rfl | hx'
      · decide
      · exact (hgood x hx').1
    apply mapButLast_eq_self
    intro x hx
    apply stripLastCR_eq_self_of_no_cr
    rcases List.mem_cons.mp hx with rfl | hx'
    · decide
    · exact (hgood x hx').2.1
  have hfilter : nonBlankLines (wordsToCsv ws) = headerChars :: ws.map lineOfRecord := by
    unfold nonBlankLines
    rw [hsplit]
    apply List.filter_eq_self.mpr
    intro x hx
    rcases List.mem_cons.mp hx with rfl | hx'
    · decide
    · obtain ⟨r, hr, rfl⟩ := List.mem_map.mp hx'
      have hne : (lineOfRecord r).isEmpty = false := by
        unfold lineOfRecord
        cases hesc : escapeCsvField (some r.word) <;> simp
      simp [(hgood _ hx').2.2, hne]
  unfold csvToWords
  rw [hfilter]
  have hhd : jsTrim (jsToLower headerChars) = headerChars := by decide
  rw [show stripHeader (headerChars :: ws.map lineOfRecord) = ws.map lineOfRecord by
    simp [stripHeader, hhd]]
  exact filterMap_parse_map h

/-- C1 witness: the amended round-trip at the spec's own escaping
example, a word with a comma and a definition with embedded quotes. -/
theorem c1_roundtrip_witness :
    csvToWords (wordsToCsv [⟨chars "a,b", chars "he said \"hi\""⟩])
      = [⟨chars "a,b", chars "he said \"hi\""⟩] :=
  c1_roundtrip_amended (by decide)

/-- C2: `escapeCsvField` is total over optional text (absent treated as
empty); exactly when the field contains a comma, double quote, line feed
or carriage return it returns the field with internal double quotes
doubled and wrapped in double quotes, and otherwise it returns the field
unchanged. -/
theorem c2_escapeCsvField_spec (field : Option (List Char)) :
    escapeCsvField field =
      if ',' ∈ field.getD [] ∨ '"' ∈ field.getD [] ∨
          '\n' ∈ field.getD [] ∨ '\r' ∈ field.getD []
      then '"' :: doubleQuotes (field.getD []) ++ ['"']
      else field.getD [] := by
  by_cases hq : needsQuotes (field.getD [])
  · rw [if_pos (needsQuotes_iff.mp hq)]
    show (if needsQuotes (field.getD [])
        then '"' :: doubleQuotes (field.getD []) ++ ['"']
        else doubleQuotes (field.getD [])) = _
    rw [if_pos hq]
  · have hq' : needsQuotes (field.getD []) = false := by simpa using hq
    rw [if_neg (fun hc => hq (needsQuotes_iff.mpr hc))]
    show (if needsQuotes (field.getD [])
        then '"' :: doubleQuotes (field.getD []) ++ ['"']
        else doubleQuotes (field.getD [])) = _
    rw [if_neg hq, doubleQuotes_eq_self (needsQuotes_false_not_mem hq').2.1]

/-- C3: the encoder emits the fixed header `word,definition` and then,
for each record in input order, one line `escaped(word),escaped(definition)`
preceded by a single line feed — so lines are joined by single newlines
with no trailing newline, and the empty input yields exactly the header. -/
theorem c3_encoder_shape :
    wordsToCsv [] = chars "word,definition" ∧
    ∀ ws : List Record, wordsToCsv ws
      = chars "word,definition"
        ++ (ws.map (fun r => '\n' ::
              (escapeCsvField (some r.word) ++ ',' :: escapeCsvField (some r.definition)))).flatten := by
  refine ⟨rfl, ?_⟩
  intro ws
  unfold wordsToCsv
  rw [intercalateNL_eq_join, List.map_map]
  rfl

/-- C4: the step behaviour of the line tokenizer's scan: `""` inside a
quoted region appends one literal quote and consumes both characters
without toggling; any other quote toggles the in-quote flag; a comma
outside quotes ends the field and a comma inside quotes is literal; any
other character is appended regardless of the flag; the accumulated
field is appended at end of line; and a non-blank line is parsed by
running the scan on the trimmed line with the flag initially false. -/
theorem c4_tokenizer_steps :
    (∀ rest cur, scanFields ('"' :: '"' :: rest) cur true
        = scanFields rest (cur ++ ['"']) true) ∧
    (∀ rest cur, rest.head? ≠ some '"' →
        scanFields ('"' :: rest) cur true = scanFields rest cur false) ∧
    (∀ rest cur, scanFields ('"' :: rest) cur false = scanFields rest cur true) ∧
    (∀ rest cur, scanFields (',' :: rest) cur false = cur :: scanFields rest [] false) ∧
    (∀ rest cur, scanFields (',' :: rest) cur true
        = scanFields rest (cur ++ [',']) true) ∧
    (∀ (c : Char) rest cur (q : Bool), c ≠ '"' → c ≠ ',' →
        scanFields (c :: rest) cur q = scanFields rest (cur ++ [c]) q) ∧
    (∀ cur b, scanFields [] cur b = [cur]) ∧
    (∀ line, jsTrim line ≠ [] → parseTwoFieldCsvLine line
        = some ⟨postField (scanFields (jsTrim line) [] false).head?,
                postField (scanFields (jsTrim line) [] false)[1]?⟩) := by
  refine ⟨scan_escape, ?_, scan_open, scan_comma_out, scan_comma_in,
    fun c rest cur q h1 h2 => scan_other h1 h2 rest cur q,
    fun cur b => scan_nil cur b, ?_⟩
  · intro rest cur h
    cases rest with
    | nil => exact scan_close_nil cur
    | cons c r =>
      have hc : c ≠ '"' := fun hc => h (by simp [hc])
      exact scan_close_cons hc r cur
  · intro line h
    unfold parseTwoFieldCsvLine
    rw [if_neg (by simpa [List.isEmpty_iff] using h)]

/-- C4 witness: the catch-all step at the concrete character `a`. -/
theorem c4_tokenizer_steps_witness :
    scanFields ['a'] [] false = scanFields [] ['a'] false := by
  have h := c4_tokenizer_steps.2.2.2.2.2.1 'a' [] [] false (by decide) (by decide)
  simpa using h

/-- C5: the decoder discards the first non-blank line exactly when that
line, lowercased and trimmed, equals `word,definition`; decoding the
header followed by `cat,a small feline` yields that one record, and so
does decoding the same blob without the header line. -/
theorem c5_header_detection :
    (∀ (blob l : List Char) (rest : List (List Char)),
      nonBlankLines blob = l :: rest →
      ((jsTrim (jsToLower l) = headerChars →
          csvToWords blob = rest.filterMap parseTwoFieldCsvLine) ∧
       (jsTrim (jsToLower l) ≠ headerChars →
          csvToWords blob = (l :: rest).filterMap parseTwoFieldCsvLine))) ∧
    csvToWords (chars "word,definition\ncat,a small feline")
      = [⟨chars "cat", chars "a small feline"⟩] ∧
    csvToWords (chars "cat,a small feline")
      = [⟨chars "cat", chars "a small feline"⟩] := by
  refine ⟨?_, by decide, by decide⟩
  intro blob l rest hls
  unfold csvToWords
  rw [hls]
  constructor
  · intro hh
    rw [show stripHeader (l :: rest) = rest by
      show (if jsTrim (jsToLower l) = headerChars then rest else l :: rest) = rest
      rw [if_pos hh]]
  · intro hh
    rw [show stripHeader (l :: rest) = l :: rest by
      show (if jsTrim (jsToLower l) = headerChars then rest else l :: rest) = l :: rest
      rw [if_neg hh]]

/-- C5 witness: the general header rule applied to a concrete blob. -/
theorem c5_header_detection_witness :
    csvToWords (chars "word,definition\nx,y")
      = [chars "x,y"].filterMap parseTwoFieldCsvLine :=
  (c5_header_detection.1 (chars "word,definition\nx,y") headerChars [chars "x,y"]
    (by decide)).1 (by decide)

/-- C6: decoding a blob yields the same records as decoding the blob
with its blank lines removed (the non-blank lines rejoined by line
feeds), because the decoder first splits and filters out blank lines. -/
theorem c6_blank_line_tolerance (blob : List Char) :
    csvToWords (intercalateNL (nonBlankLines blob)) = csvToWords blob := by
  cases hls : nonBlankLines blob with
  | nil =>
    show csvToWords (intercalateNL []) = _
    unfold csvToWords
    rw [hls]
    rfl
  | cons l ls' =>
    have hnl : ∀ x ∈ l :: ls', '\n' ∉ x := by
      intro x hx
      exact noNL_splitLines x (List.mem_of_mem_filter (hls ▸ hx))
    have hsplit : splitLinesCRLF (intercalateNL (l :: ls'))
        = mapButLast stripLastCR (l :: ls') := split_intercalate l hnl
    have hfilter : nonBlankLines (intercalateNL (l :: ls'))
        = mapButLast stripLastCR (l :: ls') := by
      unfold nonBlankLines
      rw [hsplit]
      apply List.filter_eq_self.mpr
      intro x hx
      obtain ⟨x0, hx0, hy⟩ := mapButLast_mem hx
      have hnb : jsTrim x0 ≠ [] := nonBlank_of_mem_nonBlankLines (hls ▸ hx0)
      have : jsTrim x = jsTrim x0 := by
        rcases hy with rfl | rfl
        · exact trim_stripLastCR x0
        · rfl
      simp [List.isEmpty_iff, this, hnb]
    unfold csvToWords
    rw [hfilter, hls, process_mapButLast]

/-- C7: a blob assembled from carriage-return-free lines using `\r\n`
line endings decodes to exactly the same records as the same lines
joined with `\n` endings. -/
theorem c7_crlf_tolerance {ls : List (List Char)}
    (h : ∀ x ∈ ls, '\n' ∉ x ∧ '\r' ∉ x) :
    csvToWords (intercalateCRLF ls) = csvToWords (intercalateNL ls) := by
  cases ls with
  | nil => rfl
  | cons l ls' =>
    unfold csvToWords nonBlankLines
    rw [split_intercalate_crlf l h, split_intercalate_nl_clean l h]

/-- C7 witness: CRLF and LF agreement on a concrete two-line blob. -/
theorem c7_crlf_tolerance_witness :
    csvToWords (intercalateCRLF [chars "a,b", chars "c,d"])
      = csvToWords (intercalateNL [chars "a,b", chars "c,d"]) :=
  c7_crlf_tolerance (by decide)

/-- C8: the decoder is total: an empty or header-only blob decodes to
the empty sequence, every non-blank surviving line yields exactly one
record (the decoded list has the same length as the post-header line
list), a line whose scan produces no second field yields a record with
an empty definition, and every non-blank line parses to some record. -/
theorem c8_decoder_total :
    csvToWords [] = [] ∧
    csvToWords headerChars = [] ∧
    (∀ blob, (csvToWords blob).length = (stripHeader (nonBlankLines blob)).length) ∧
    (∀ l, jsTrim l ≠ [] → (scanFields (jsTrim l) [] false)[1]? = none →
      ∃ w, parseTwoFieldCsvLine l = some ⟨w, []⟩) ∧
    (∀ l, jsTrim l ≠ [] → ∃ r, parseTwoFieldCsvLine l = some r) := by
  refine ⟨by decide, by decide, ?_, ?_, ?_⟩
  · intro blob
    exact length_filterMap_parse
      (fun l hl => nonBlank_of_mem_nonBlankLines (mem_of_mem_stripHeader hl))
  · exact fun l h h2 => parse_missing_second h h2
  · exact fun l h => parse_some_of_nonblank h

/-- C8 witness: a one-field line parses to a record whose definition is
empty. -/
theorem c8_decoder_total_witness :
    ∃ w, parseTwoFieldCsvLine (chars "abc") = some ⟨w, []⟩ :=
  c8_decoder_total.2.2.2.1 (chars "abc") (by decide) (by decide)

/-- C9 (counterexample): a decoded field can contain two consecutive
double quotes: the line of eight quotes scans to a field of three
quotes, and the single left-to-right `""` → `"` pass leaves `""`. -/
theorem c9_no_consec_quotes_counterexample :
    parseTwoFieldCsvLine (chars "\"\"\"\"\"\"\"\"") = some ⟨chars "\"\"", []⟩ ∧
    noConsecQuotes (chars "\"\"") = false := by decide

/-- C9 (amended): every field of every decoded record carries no leading
or trailing whitespace, because each field is trimmed after the
double-quote collapse; the collapse itself is a single left-to-right
pass and does not guarantee absence of consecutive double quotes. -/
theorem c9_fields_trimmed {l : List Char} {r : Record} (h : parseTwoFieldCsvLine l = some r) :
    jsTrim r.word = r.word ∧ jsTrim r.definition = r.definition := by
  unfold parseTwoFieldCsvLine at h
  by_cases he : (jsTrim l).isEmpty
  · rw [if_pos he] at h
    exact absurd h (by simp)
  · rw [if_neg he] at h
    injection h with h
    subst h
    exact ⟨postField_trimmed _, postField_trimmed _⟩

/-- C9 witness: the trimmedness of both fields at a concrete line. -/
theorem c9_fields_trimmed_witness :
    jsTrim (chars "a") = chars "a" ∧ jsTrim (chars "b") = chars "b" :=
  c9_fields_trimmed (l := chars "a,b") (r := ⟨chars "a", chars "b"⟩) (by decide)

/-- C10: a headerless blob whose first non-blank line lowercases and
trims to `word,definition` loses exactly that line to header removal;
later lines are never subject to it. -/
theorem c10_header_eats_data :
    csvToWords (chars "WORD,DEFINITION\ncat,a small feline")
      = [⟨chars "cat", chars "a small feline"⟩] ∧
    csvToWords (chars "x,y\nWORD,DEFINITION")
      = [⟨chars "x", chars "y"⟩, ⟨chars "WORD", chars "DEFINITION"⟩] ∧
    (∀ (blob l : List Char) (rest : List (List Char)),
      nonBlankLines blob = l :: rest → jsTrim (jsToLower l) = headerChars →
      csvToWords blob = rest.filterMap parseTwoFieldCsvLine) := by
  refine ⟨by decide, by decide, ?_⟩
  intro blob l rest hls hh
  unfold csvToWords
  rw [hls]
  rw [show stripHeader (l :: rest) = rest by
    show (if jsTrim (jsToLower l) = headerChars then rest else l :: rest) = rest
    rw [if_pos hh]]

/-- C10 witness: the intended data line `WORD,DEFINITION`, alone in a
blob, is swallowed by header removal. -/
theorem c10_header_eats_data_witness :
    csvToWords (chars "WORD,DEFINITION")
      = List.filterMap parseTwoFieldCsvLine [] :=
  c10_header_eats_data.2.2 (chars "WORD,DEFINITION") (chars "WORD,DEFINITION") []
    (by decide) (by decide)

end CardApp
